import Mathlib

/-!
Verification of the peer-to-peer routing core (chain/network/src/routing/graph_with_cache.rs,
chain/network/src/peer_manager/network_state/routing.rs) and of the VM register state
(runtime/near-vm-logic/src/vmstate.rs).

The Rust code is shallowly embedded: hash maps become association lists, the undirected
graph becomes a list of keys used as a set, machine integers become Nat/Int, and the
fallible register operations return Except values together with the final mutable state.
Parts of the repository that the embedded functions call but whose source is not part of
the verified tree (the Edge type of network_protocol, Edge::deduplicate, routing::Graph's
BFS kernel, the gas counter) are modelled from the specification document; each such
definition carries a doc comment saying so.
-/

namespace NearRouting

/-- Peer identifier (opaque public-key fingerprint in the source). -/
abbrev PeerId := Nat

/-- `type EdgeKey = (PeerId, PeerId)` from graph_with_cache.rs. -/
abbrev EdgeKey := PeerId × PeerId

/-- `EdgeState` of network_protocol: an edge is either Active or Removed. -/
inductive EdgeState where
  | Active
  | Removed
deriving DecidableEq

/-- Modelled from the spec: the Edge type lives in network_protocol, outside the verified
tree. Per the spec an edge carries its canonical key `(p0, p1)`, a `nonce : u64` whose
parity encodes the state (odd = Active, even = Removed), a `created_at_utc` wall-clock
stamp used for age pruning, and signatures. Signature verification is abstracted by the
boolean `valid`: `Edge::verify()` returns exactly this bit. -/
structure Edge where
  key : EdgeKey
  nonce : Nat
  createdAt : Int
  valid : Bool
deriving DecidableEq

/-- `Edge::edge_type()`: odd nonce means Active, even nonce means Removed (spec §3). -/
def Edge.edge_type (e : Edge) : EdgeState :=
  if e.nonce % 2 = 1 then .Active else .Removed

/-- `Edge::is_edge_older_than(t)`: the edge's `created_at_utc` is before `t` (spec §3, §4.4.3). -/
def Edge.is_edge_older_than (e : Edge) (t : Int) : Bool :=
  e.createdAt < t

/-- The edge table E (`im::HashMap<EdgeKey, Edge>`), modelled as a list of edges,
each entry keyed by its own `key` field. -/
abbrev Emap := List Edge

/-- Map lookup on E by key. -/
def lookupE (m : Emap) (k : EdgeKey) : Option Edge :=
  m.find? (fun e => e.key = k)

/-- Removal of a key from E. -/
def removeE (m : Emap) (k : EdgeKey) : Emap :=
  m.filter (fun e => ¬(e.key = k))

/-- Insertion into E, overwriting any entry for the same key. -/
def insertE (m : Emap) (e : Edge) : Emap :=
  e :: removeE m e.key

/-- `fn has(set, edge)` from graph_with_cache.rs: E already holds an entry for
`edge.key()` whose nonce is `>=` the candidate's nonce. -/
def has (m : Emap) (e : Edge) : Bool :=
  match lookupE m e.key with
  | some x => e.nonce ≤ x.nonce
  | none => false

/-- The in-memory undirected graph G (`routing::Graph`), modelled by its set of
active edge keys; `add_edge`/`remove_edge` maintain it as a set. -/
abbrev GraphSet := List EdgeKey

/-- `Graph::add_edge` on the key set: idempotent insertion (spec §4.2 requires
identical `add_edge` calls to be idempotent). -/
def add_edge (g : GraphSet) (k : EdgeKey) : GraphSet :=
  if k ∈ g then g else k :: g

/-- `Graph::remove_edge` on the key set. -/
def remove_edge_g (g : GraphSet) (k : EdgeKey) : GraphSet :=
  g.filter (fun x => ¬(x = k))

/-- The reachability map R (`peer_reachable_at : HashMap<PeerId, time::Instant>`),
modelled as an association list; instants are integers. -/
abbrev Rmap := List (PeerId × Int)

def lookupR (r : Rmap) (p : PeerId) : Option Int :=
  (r.find? (fun q => q.1 = p)).map Prod.snd

def insertR (r : Rmap) (p : PeerId) (t : Int) : Rmap :=
  (p, t) :: r.filter (fun q => ¬(q.1 = p))

def removeR (r : Rmap) (p : PeerId) : Rmap :=
  r.filter (fun q => ¬(q.1 = p))

/-- The component store (spec §4.3, store::Store): a durable map `PeerId → list<Edge>`
together with a log of `push_component` calls, which the theorems inspect. -/
structure Store where
  comps : List (PeerId × List Edge)
  pushLog : List (List PeerId × List Edge)
deriving DecidableEq

/-- `Store::push_component(peers, edges)`: writes the blob under each `p ∈ peers`
and records the call. -/
def Store.push_component (st : Store) (peers : List PeerId) (edges : List Edge) : Store :=
  { comps := peers.foldl (fun c p => (p, edges) :: c.filter (fun q => ¬(q.1 = p))) st.comps,
    pushLog := st.pushLog ++ [(peers, edges)] }

/-- `Store::pop_component(p)`: returns and removes whatever is stored under `p`;
a missing key yields the empty list (spec §4.3). -/
def Store.pop_component (st : Store) (p : PeerId) : List Edge × Store :=
  (((st.comps.find? (fun q => q.1 = p)).map Prod.snd).getD [],
   { st with comps := st.comps.filter (fun q => ¬(q.1 = p)) })

/-- `Config` of graph_with_cache.rs. -/
structure Config where
  node_id : PeerId
  prune_unreachable_peers_after : Int
  prune_edges_after : Option Int
deriving DecidableEq

/-- `struct Inner` of graph_with_cache.rs: config, graph G, edge table E,
reachability map R and the store handle. -/
structure Inner where
  config : Config
  graph : GraphSet
  edges : Emap
  peer_reachable_at : Rmap
  store : Store
deriving DecidableEq

/-- `Inner::update_edge(now, edge)`: reject if dominated by the held entry or (when
`prune_edges_after` is configured) too old; otherwise apply the state transition in G,
insert into E, and report true. -/
def Inner.update_edge (s : Inner) (now : Int) (e : Edge) : Bool × Inner :=
  if has s.edges e then (false, s)
  else if (match s.config.prune_edges_after with
           | some d => e.is_edge_older_than (now - d)
           | none => false) then (false, s)
  else
    let g := match e.edge_type with
      | .Active => add_edge s.graph e.key
      | .Removed => remove_edge_g s.graph e.key
    (true, { s with graph := g, edges := insertE s.edges e })

/-- `Inner::remove_edge(key)`: drop the entry from E and, if one was present,
from G as well. -/
def Inner.remove_edge (s : Inner) (k : EdgeKey) : Inner :=
  if (lookupE s.edges k).isSome then
    { s with edges := removeE s.edges k, graph := remove_edge_g s.graph k }
  else s

/-- Does the key touch the peer set (either endpoint is in `peers`)? -/
def touches (peers : List PeerId) (k : EdgeKey) : Bool :=
  k.1 ∈ peers ∨ k.2 ∈ peers

/-- One step of `Inner::remove_adjacent_edges`: for an edge of the snapshot whose key
touches the peer set, remove it from the live state and collect it. -/
def raeStep (peers : List PeerId) (acc : List Edge × Inner) (e : Edge) : List Edge × Inner :=
  if touches peers e.key then (acc.1 ++ [e], acc.2.remove_edge e.key) else acc

/-- `Inner::remove_adjacent_edges(peers)`: iterate over a snapshot of E, dropping every
entry whose key touches `peers`, returning the dropped edges. -/
def Inner.remove_adjacent_edges (s : Inner) (peers : List PeerId) : List Edge × Inner :=
  s.edges.foldl (raeStep peers) ([], s)

/-- `Inner::prune_old_edges(threshold)`: drop every entry of E older than the threshold. -/
def Inner.prune_old_edges (s : Inner) (t : Int) : Inner :=
  s.edges.foldl (fun st e => if e.is_edge_older_than t then st.remove_edge e.key else st) s

/-- A peer counts as unreachable w.r.t. threshold `t`: its R entry is missing or
strictly earlier than `t` (`.map(|ti| ti < t).unwrap_or(true)` in the source). -/
def unreachableB (r : Rmap) (t : Int) (p : PeerId) : Bool :=
  match lookupR r p with
  | some ti => ti < t
  | none => true

/-- Insertion into a list used as a set (HashSet::insert). -/
def insertP (l : List PeerId) (p : PeerId) : List PeerId :=
  if p ∈ l then l else l ++ [p]

/-- One edge's contribution to the peer-collection loop of
`Inner::prune_unreachable_peers`: each unreachable endpoint of the key is added. -/
def collectStep (r : Rmap) (t : Int) (acc : List PeerId) (e : Edge) : List PeerId :=
  let acc1 := if unreachableB r t e.key.1 then insertP acc e.key.1 else acc
  if unreachableB r t e.key.2 then insertP acc1 e.key.2 else acc1

/-- The peer-collection loop of `Inner::prune_unreachable_peers`: every endpoint
mentioned in a key of E whose R entry is missing or older than the threshold. -/
def collect_unreachable (s : Inner) (t : Int) : List PeerId :=
  s.edges.foldl (collectStep s.peer_reachable_at t) []

/-- The non-trivial branch of `Inner::prune_unreachable_peers`: drop the collected
peers from R, remove their adjacent edges, and spill peers and edges to the store. -/
def Inner.prune_unreachable_go (s : Inner) (peers : List PeerId) : Inner :=
  let s1 : Inner := { s with peer_reachable_at := peers.foldl removeR s.peer_reachable_at }
  let r := s1.remove_adjacent_edges peers
  { r.2 with store := r.2.store.push_component peers r.1 }

/-- `Inner::prune_unreachable_peers(unreachable_since)`: collect the unreachable peers;
if none, do nothing; otherwise drop them from R, remove their adjacent edges, and spill
peers and edges to the store via `push_component`. -/
def Inner.prune_unreachable_peers (s : Inner) (t : Int) : Inner :=
  let peers := collect_unreachable s t
  if peers.isEmpty then s else s.prune_unreachable_go peers

/-- `Inner::load_component(now, peer_id)`: no-op for the local node or a peer present
in R; otherwise pop the peer's component from the store and replay each stored edge
through `update_edge`. -/
def Inner.load_component (s : Inner) (now : Int) (p : PeerId) : Inner :=
  if p = s.config.node_id ∨ (lookupR s.peer_reachable_at p).isSome then s
  else
    let r := s.store.pop_component p
    r.1.foldl (fun s e => (s.update_edge now e).2) { s with store := r.2 }

/-- One expansion step of the reachability computation: an edge lets the search cross
from a reached endpoint to the other endpoint, provided the reached endpoint may be
used as transit (it is the local node or is not unreliable). -/
def stepReach (g : GraphSet) (localId : PeerId) (unreliable : List PeerId) (r : List PeerId) :
    List PeerId :=
  g.foldl (fun r k =>
    let r := if k.1 ∈ r ∧ (k.1 = localId ∨ ¬(k.1 ∈ unreliable)) then insertP r k.2 else r
    if k.2 ∈ r ∧ (k.2 = localId ∨ ¬(k.2 ∈ unreliable)) then insertP r k.1 else r) r

/-- Fuel-bounded iteration of the expansion step. -/
def iterReach : Nat → (List PeerId → List PeerId) → List PeerId → List PeerId
  | 0, _, r => r
  | n + 1, f, r => iterReach n f (f r)

/-- Modelled from the spec: `routing::Graph::calculate_distance` (the BFS kernel) is not
part of the verified tree. Per spec §4.2 and §8.7 the key set of the returned next-hop
table H is the set of peers reachable from the local node in G, where an unreliable
peer may be a destination but never a transit hop; the local node itself is not a key
of H (spec §8 scenario S1). Only this key set matters to the embedded callers. -/
def calculate_distance (g : GraphSet) (localId : PeerId) (unreliable : List PeerId) :
    List PeerId :=
  (iterReach (g.length + 1) (stepReach g localId unreliable) [localId]).filter
    (fun p => ¬(p = localId))

/-- `Inner::update_routing_table(clock, edges, unreliable_peers)`: load components for
the endpoints of every incoming edge, retain the edges `update_edge` accepts, age-prune,
recompute the next-hop table, refresh reachability for the local node and every key of
the table, and finally prune unreachable peers. Returns the retained edges and the
next-hop key set. -/
def Inner.update_routing_table (s : Inner) (nowUtc nowInst : Int) (edges : List Edge)
    (unreliable : List PeerId) : (List Edge × List PeerId) × Inner :=
  let s := edges.foldl
    (fun s e => (s.load_component nowUtc e.key.1).load_component nowUtc e.key.2) s
  let ap := edges.foldl (fun (acc : List Edge × Inner) e =>
      let r := acc.2.update_edge nowUtc e
      (if r.1 then acc.1 ++ [e] else acc.1, r.2)) ([], s)
  let s := ap.2
  let s := match s.config.prune_edges_after with
    | some d => s.prune_old_edges (nowUtc - d)
    | none => s
  let next_hops := calculate_distance s.graph s.config.node_id unreliable
  let newR := next_hops.foldl (fun r p => insertR r p nowInst)
    (insertR s.peer_reachable_at s.config.node_id nowInst)
  let s : Inner := { s with peer_reachable_at := newR }
  let s := s.prune_unreachable_peers (nowInst - s.config.prune_unreachable_peers_after)
  ((ap.1, next_hops), s)

/-- Modelled from the spec: `Edge::deduplicate` lives in network_protocol, outside the
verified tree. Per spec §3 and §4.1 it keeps, for each key, the record with the largest
nonce (a nonce tie fixes the state by parity, so either record may be kept). One
insertion step of the O(n) pass. -/
def dedup_insert (acc : List Edge) (e : Edge) : List Edge :=
  match acc.find? (fun x => x.key = e.key) with
  | some x => if e.nonce ≤ x.nonce then acc else e :: acc.filter (fun y => ¬(y.key = e.key))
  | none => e :: acc

/-- Modelled from the spec: `Edge::deduplicate(list)` keeps the max-nonce record per key. -/
def deduplicate (l : List Edge) : List Edge :=
  l.foldl dedup_insert []

/-- `GraphWithCache::verify(edges)`: deduplicate, drop the edges already dominated by the
published snapshot of E, then verify the remainder in parallel. The parallel
`concurrency::rayon::try_map` is not part of the verified tree; per spec §4.5 it returns
the valid subset as `accepted` and `all_ok` iff every submitted post-filter edge
verified. -/
def GraphWithCache.verify (snapshot : Emap) (edges : List Edge) : List Edge × Bool :=
  let ded := deduplicate edges
  let post := ded.filter (fun e => !has snapshot e)
  (post.filter (fun e => e.valid), post.all (fun e => e.valid))

/-- A key of G points at an Active entry of E. -/
def graph_key_ok (m : Emap) (k : EdgeKey) : Bool :=
  match lookupE m k with
  | some e => e.edge_type = EdgeState.Active
  | none => false

/-- An entry of E agrees with G: Active entries have their key in G, Removed entries
(tombstones) do not. -/
def entry_ok (g : GraphSet) (e : Edge) : Bool :=
  match e.edge_type with
  | .Active => e.key ∈ g
  | .Removed => ¬(e.key ∈ g)

/-- The state-consistency invariant of spec §8.3: a key is in G iff E holds an Active
entry for it, and a key held in E with state Removed has no entry in G. -/
def Consistent (s : Inner) : Prop :=
  (∀ k ∈ s.graph, graph_key_ok s.edges k = true) ∧
  (∀ e ∈ s.edges, entry_ok s.graph e = true)

instance (s : Inner) : Decidable (Consistent s) :=
  inferInstanceAs (Decidable ((∀ k ∈ s.graph, graph_key_ok s.edges k = true) ∧
    (∀ e ∈ s.edges, entry_ok s.graph e = true)))

/-- `ReasonForBan`, restricted to the variant the routing facade produces. -/
inductive ReasonForBan where
  | InvalidEdge
deriving DecidableEq

/-- The state that `NetworkState::add_edges` (routing.rs) reads and writes: the
graph-with-cache Inner state, the published snapshot of E (the ArcSwap the verifier
consults lock-free), the node's creation instant, the `skip_tombstones` config, the
unreliable-peer set, and the log of `RoutingTableUpdate` edge payloads broadcast so far. -/
structure NetworkState where
  inner : Inner
  snapshot : Emap
  created_at : Int
  skip_tombstones : Option Int
  unreliable_peers : List PeerId
  broadcasts : List (List Edge)
deriving DecidableEq

/-- `NetworkState::broadcast_routing_table_update` restricted to edge payloads: an empty
(default) update is not sent; otherwise the edges are deduplicated and the message goes
to every TIER2 peer (we record the payload). -/
def broadcast_rtu (bs : List (List Edge)) (edges : List Edge) : List (List Edge) :=
  if edges.isEmpty then bs else bs ++ [deduplicate edges]

/-- `GraphWithCache::update_routing_table` at the facade (called `graph.update` by
routing.rs): run the Inner update under the lock, publish the new snapshot of E, and
hand back the applied edges. -/
def NetworkState.graph_update (s : NetworkState) (nowUtc nowInst : Int) (edges : List Edge) :
    List Edge × NetworkState :=
  let r := s.inner.update_routing_table nowUtc nowInst edges s.unreliable_peers
  (r.1.1, { s with inner := r.2, snapshot := r.2.edges })

/-- `NetworkState::add_edges(clock, edges)` (routing.rs): verify the batch against the
published snapshot; return early when nothing new verified; otherwise apply the accepted
edges to the graph, suppress tombstones from the gossip payload during the warm-up
window, broadcast, and finally surface `InvalidEdge` iff verification reported a failure. -/
def NetworkState.add_edges (s : NetworkState) (nowUtc nowInst : Int) (edges : List Edge) :
    Except ReasonForBan Unit × NetworkState :=
  let v := GraphWithCache.verify s.snapshot edges
  let result : Except ReasonForBan Unit :=
    if v.2 then .ok () else .error .InvalidEdge
  if v.1.isEmpty then (result, s)
  else
    let r := s.graph_update nowUtc nowInst v.1
    let s1 := r.2
    let gossip := match s1.skip_tombstones with
      | some d =>
          if nowInst < s1.created_at + d then r.1.filter (fun e => e.edge_type = .Active)
          else r.1
      | none => r.1
    (result, { s1 with broadcasts := broadcast_rtu s1.broadcasts gossip })

end NearRouting

namespace NearVM

/-- `HostError`, restricted to the variants vmstate.rs can produce, plus the gas-exhaustion
error of the gas counter. -/
inductive HostError where
  | MemoryAccessViolation
  | InvalidRegisterId (register_id : Nat)
  | GasExceeded
deriving DecidableEq

/-- The external costs vmstate.rs charges. -/
structure GasCosts where
  read_register_base : Nat
  read_register_byte : Nat
  write_register_base : Nat
  write_register_byte : Nat
deriving DecidableEq

/-- Modelled from the spec: the GasCounter type (gas_counter.rs) is not part of the
verified tree; vmstate.rs only relies on `pay_base`/`pay_per` charging gas and failing
when there is not enough of it. We model it as burnt gas against a limit. -/
structure GasCounter where
  costs : GasCosts
  burnt : Nat
  limit : Nat
deriving DecidableEq

/-- Modelled from the spec: a gas payment burns `cost` more gas, failing (with a
non-MemoryAccessViolation error) when the limit would be exceeded. `pay_per(c, n)` is
`pay (c * n)`. -/
def GasCounter.pay (g : GasCounter) (cost : Nat) : Except HostError Unit × GasCounter :=
  if g.burnt + cost ≤ g.limit then (.ok (), { g with burnt := g.burnt + cost })
  else (.error .GasExceeded, g)

/-- The relevant fields of `VMLimitConfig`. -/
structure VMLimitConfig where
  max_register_size : Nat
  max_number_registers : Nat
  registers_memory_limit : Nat
deriving DecidableEq

/-- `Registers(HashMap<u64, Box<[u8]>>)`, modelled as an association list from register
id to byte string. -/
abbrev Regs := List (Nat × List Nat)

def lookupReg (rs : Regs) (id : Nat) : Option (List Nat) :=
  (rs.find? (fun p => p.1 = id)).map Prod.snd

/-- Per-register memory usage term of vmstate.rs: `size_of::<u64>() + v.len()`. -/
def regUsage (rs : Regs) : Nat :=
  rs.foldl (fun a p => a + 8 + p.2.length) 0

/-- `Registers::get(gas_counter, register_id)`: a missing register yields
`InvalidRegisterId` without touching the gas counter; a present one pays
`read_register_base` plus `read_register_byte` per byte and returns the data. -/
def Registers.get (rs : Regs) (gas : GasCounter) (register_id : Nat) :
    Except HostError (List Nat) × GasCounter :=
  match lookupReg rs register_id with
  | some data =>
      match gas.pay gas.costs.read_register_base with
      | (.error e, g) => (.error e, g)
      | (.ok _, g) =>
          if data.length ≥ 2 ^ 64 then (.error .MemoryAccessViolation, g)
          else
            match g.pay (gas.costs.read_register_byte * data.length) with
            | (.error e, g2) => (.error e, g2)
            | (.ok _, g2) => (.ok data, g2)
  | none => (.error (.InvalidRegisterId register_id), gas)

/-- `Registers::set(gas_counter, config, register_id, data)`: pay for the write, enforce
the register-size and register-count limits, insert, and (unless an existing no-shorter
value was replaced) enforce the total-memory limit — computed on the map that already
holds the new value, exactly as in the source, which does not roll the insertion back
on failure. -/
def Registers.set (rs : Regs) (gas : GasCounter) (config : VMLimitConfig)
    (register_id : Nat) (data : List Nat) : Except HostError Unit × GasCounter × Regs :=
  if data.length ≥ 2 ^ 64 then (.error .MemoryAccessViolation, gas, rs)
  else
    let data_len := data.length
    match gas.pay gas.costs.write_register_base with
    | (.error e, g) => (.error e, g, rs)
    | (.ok _, g) =>
        match g.pay (gas.costs.write_register_byte * data_len) with
        | (.error e, g) => (.error e, g, rs)
        | (.ok _, g) =>
            if data_len > config.max_register_size ∨
                rs.length ≥ config.max_number_registers then
              (.error .MemoryAccessViolation, g, rs)
            else
              let old := lookupReg rs register_id
              let rs' : Regs := (register_id, data) :: rs.filter (fun p => ¬(p.1 = register_id))
              match old with
              | some old_value =>
                  if data_len ≤ old_value.length then (.ok (), g, rs')
                  else if regUsage rs' > config.registers_memory_limit then
                    (.error .MemoryAccessViolation, g, rs')
                  else (.ok (), g, rs')
              | none =>
                  if regUsage rs' > config.registers_memory_limit then
                    (.error .MemoryAccessViolation, g, rs')
                  else (.ok (), g, rs')

end NearVM

deriving instance DecidableEq for Except

namespace NearRouting

/-! ### Basic lemmas about the map and set representations -/

theorem find?_filter_of_imp {α : Type} (l : List α) (p q : α → Bool)
    (h : ∀ x, q x = true → p x = true) : (l.filter p).find? q = l.find? q := by
  induction l with
  | nil => rfl
  | cons a l ih =>
      by_cases hp : p a = true
      · rw [List.filter_cons_of_pos hp]
        by_cases hq : q a = true
        · rw [List.find?_cons_of_pos _ hq, List.find?_cons_of_pos _ hq]
        · rw [List.find?_cons_of_neg _ (by simpa using hq),
              List.find?_cons_of_neg _ (by simpa using hq)]
          exact ih
      · have hq : ¬(q a = true) := fun hqa => hp (h a hqa)
        rw [List.filter_cons_of_neg (by simpa using hp),
            List.find?_cons_of_neg _ (by simpa using hq)]
        exact ih

theorem lookupE_insertE_self (m : Emap) (e : Edge) :
    lookupE (insertE m e) e.key = some e := by
  unfold insertE lookupE
  rw [List.find?_cons_of_pos]
  simp

theorem lookupE_removeE_ne (m : Emap) (k k' : EdgeKey) (h : k' ≠ k) :
    lookupE (removeE m k) k' = lookupE m k' := by
  unfold lookupE removeE
  exact find?_filter_of_imp m _ _ (by
    intro x hx
    simp only [decide_eq_true_eq] at hx
    simp [hx, h])

theorem lookupE_insertE_ne (m : Emap) (e : Edge) (k : EdgeKey) (h : k ≠ e.key) :
    lookupE (insertE m e) k = lookupE m k := by
  unfold insertE lookupE
  rw [List.find?_cons_of_neg _ (by simp [Ne.symm h])]
  exact lookupE_removeE_ne m e.key k h

theorem lookupE_removeE_self (m : Emap) (k : EdgeKey) :
    lookupE (removeE m k) k = none := by
  unfold lookupE removeE
  rw [List.find?_eq_none]
  intro e he
  simp only [List.mem_filter, decide_eq_true_eq, Bool.not_eq_true'] at he
  simp only [decide_eq_true_eq]
  intro hk
  rcases he with ⟨_, hne⟩
  simp [hk] at hne

theorem mem_removeE (m : Emap) (k : EdgeKey) (x : Edge) :
    x ∈ removeE m k ↔ x ∈ m ∧ x.key ≠ k := by
  simp [removeE, List.mem_filter]

theorem mem_insertE (m : Emap) (e : Edge) (x : Edge) :
    x ∈ insertE m e ↔ x = e ∨ (x ∈ m ∧ x.key ≠ e.key) := by
  simp [insertE, mem_removeE]

theorem lookupE_isSome_of_mem (m : Emap) (e : Edge) (h : e ∈ m) :
    (lookupE m e.key).isSome := by
  rw [lookupE, List.find?_isSome]
  exact ⟨e, h, by simp⟩

theorem lookupE_eq_none_iff (m : Emap) (k : EdgeKey) :
    lookupE m k = none ↔ ∀ e ∈ m, e.key ≠ k := by
  rw [lookupE, List.find?_eq_none]
  simp

theorem mem_add_edge (g : GraphSet) (k k' : EdgeKey) :
    k' ∈ add_edge g k ↔ k' = k ∨ k' ∈ g := by
  unfold add_edge
  by_cases h : k ∈ g
  · simp only [if_pos h]
    constructor
    · exact fun hk => Or.inr hk
    · rintro (rfl | hk)
      · exact h
      · exact hk
  · simp [if_neg h]

theorem mem_remove_edge_g (g : GraphSet) (k k' : EdgeKey) :
    k' ∈ remove_edge_g g k ↔ k' ∈ g ∧ k' ≠ k := by
  simp [remove_edge_g, List.mem_filter]

theorem has_eq_false_iff (m : Emap) (e : Edge) :
    has m e = false ↔ ∀ x, lookupE m e.key = some x → x.nonce < e.nonce := by
  unfold has
  cases h : lookupE m e.key with
  | none =>
      constructor
      · intro _ x hx
        exact Option.noConfusion hx
      · intro _
        rfl
  | some x =>
      simp only [decide_eq_false_iff_not, not_le]
      constructor
      · intro hx y hy
        cases hy
        exact hx
      · intro hx
        exact hx x rfl

theorem update_edge_of_has (s : Inner) (now : Int) (e : Edge) (h : has s.edges e = true) :
    s.update_edge now e = (false, s) := by
  simp [Inner.update_edge, h]

theorem update_edge_of_old (s : Inner) (now : Int) (e : Edge)
    (h : has s.edges e = false)
    (hage : (match s.config.prune_edges_after with
      | some d => e.is_edge_older_than (now - d)
      | none => false) = true) :
    s.update_edge now e = (false, s) := by
  simp [Inner.update_edge, h, hage]

/-! ### C1 and C5: update_edge -/

/-- C1: `Inner::update_edge(now, edge)` returns false, changing nothing, when E already
holds an entry for the edge's key with nonce no smaller than the edge's, or when
`prune_edges_after` is configured and the edge is older than `now - prune_edges_after`;
otherwise it applies the state transition to G (add for Active, remove for Removed),
inserts the edge into E overwriting the older entry, and returns true. -/
theorem update_edge_spec (s : Inner) (now : Int) (e : Edge) :
    (∀ x, lookupE s.edges e.key = some x → e.nonce ≤ x.nonce →
      s.update_edge now e = (false, s)) ∧
    ((∀ x, lookupE s.edges e.key = some x → x.nonce < e.nonce) →
      ∀ d, s.config.prune_edges_after = some d → e.createdAt < now - d →
      s.update_edge now e = (false, s)) ∧
    ((∀ x, lookupE s.edges e.key = some x → x.nonce < e.nonce) →
      (∀ d, s.config.prune_edges_after = some d → now - d ≤ e.createdAt) →
      s.update_edge now e =
        (true, { s with
          graph := if e.edge_type = .Active then add_edge s.graph e.key
                   else remove_edge_g s.graph e.key,
          edges := insertE s.edges e })) := by
  refine ⟨?_, ?_, ?_⟩
  · intro x hx hle
    have hh : has s.edges e = true := by
      unfold has
      rw [hx]
      simpa using hle
    exact update_edge_of_has s now e hh
  · intro hlt d hd hold
    have hh : has s.edges e = false := (has_eq_false_iff s.edges e).mpr hlt
    exact update_edge_of_old s now e hh (by
      rw [hd]
      simpa [Edge.is_edge_older_than] using hold)
  · intro hlt hyoung
    have hh : has s.edges e = false := (has_eq_false_iff s.edges e).mpr hlt
    have hage : (match s.config.prune_edges_after with
        | some d => e.is_edge_older_than (now - d)
        | none => false) = false := by
      cases hp : s.config.prune_edges_after with
      | none => rfl
      | some d =>
          simp only [Edge.is_edge_older_than, decide_eq_false_iff_not, not_lt]
          exact hyoung d hp
    cases ht : e.edge_type <;>
      simp [Inner.update_edge, hh, hage, ht]

/-- Witness for C1: on the empty state a fresh Active edge is accepted, added to both
E and G, and reported as new. -/
theorem update_edge_spec_witness :
    (Inner.update_edge
        { config := { node_id := 0, prune_unreachable_peers_after := 100,
                      prune_edges_after := some 10 },
          graph := [], edges := [], peer_reachable_at := [],
          store := { comps := [], pushLog := [] } } 5
        { key := (1, 2), nonce := 1, createdAt := 0, valid := true }) =
      (true,
        { config := { node_id := 0, prune_unreachable_peers_after := 100,
                      prune_edges_after := some 10 },
          graph := [(1, 2)],
          edges := [{ key := (1, 2), nonce := 1, createdAt := 0, valid := true }],
          peer_reachable_at := [],
          store := { comps := [], pushLog := [] } }) := by
  have h := (update_edge_spec
    { config := { node_id := 0, prune_unreachable_peers_after := 100,
                  prune_edges_after := some 10 },
      graph := [], edges := [], peer_reachable_at := [],
      store := { comps := [], pushLog := [] } } 5
    { key := (1, 2), nonce := 1, createdAt := 0, valid := true }).2.2
    (by intro x hx; exact Option.noConfusion hx)
    (by intro d hd; cases hd; decide)
  rw [h]
  decide

/-- C5: applying the same edge twice through `update_edge` is idempotent — the second
application returns false and leaves the state (hence E, G, and the next-hop table H
computed from G) exactly as after the first application. -/
theorem update_edge_idempotent (s : Inner) (now : Int) (e : Edge) :
    ((s.update_edge now e).2).update_edge now e = (false, (s.update_edge now e).2) := by
  by_cases h1 : has s.edges e = true
  · rw [update_edge_of_has s now e h1]
    exact update_edge_of_has s now e h1
  · have h1' : has s.edges e = false := by simpa using h1
    by_cases h2 : (match s.config.prune_edges_after with
        | some d => e.is_edge_older_than (now - d)
        | none => false) = true
    · rw [update_edge_of_old s now e h1' h2]
      exact update_edge_of_old s now e h1' h2
    · have h2' : (match s.config.prune_edges_after with
          | some d => e.is_edge_older_than (now - d)
          | none => false) = false := by simpa using h2
      have hfst : (s.update_edge now e).2.edges = insertE s.edges e := by
        simp [Inner.update_edge, h1', h2']
      refine update_edge_of_has _ now e ?_
      rw [hfst]
      unfold has
      rw [lookupE_insertE_self]
      simp

/-! ### Preservation of the state-consistency invariant (C4) -/

theorem foldl_preserve {α σ : Type} (P : σ → Prop) (f : σ → α → σ)
    (h : ∀ st a, P st → P (f st a)) : ∀ (l : List α) (s : σ), P s → P (l.foldl f s) := by
  intro l
  induction l with
  | nil => intro s hs; exact hs
  | cons a l ih => intro s hs; exact ih (f s a) (h s a hs)

theorem consistent_insert_active (s : Inner) (e : Edge) (ht : e.edge_type = .Active)
    (h : Consistent s) :
    Consistent { s with graph := add_edge s.graph e.key, edges := insertE s.edges e } := by
  obtain ⟨hg, he⟩ := h
  constructor
  · intro k hk
    rcases (mem_add_edge s.graph e.key k).mp hk with rfl | hk'
    · unfold graph_key_ok
      rw [lookupE_insertE_self]
      simp [ht]
    · by_cases hke : k = e.key
      · subst hke
        unfold graph_key_ok
        rw [lookupE_insertE_self]
        simp [ht]
      · unfold graph_key_ok
        rw [lookupE_insertE_ne _ _ _ hke]
        exact hg k hk'
  · intro x hx
    rcases (mem_insertE s.edges e x).mp hx with rfl | ⟨hxm, hxk⟩
    · unfold entry_ok
      rw [ht]
      simp [mem_add_edge]
    · have hold := he x hxm
      unfold entry_ok at hold ⊢
      cases htx : x.edge_type with
      | Active =>
          rw [htx] at hold
          simp only [decide_eq_true_eq] at hold ⊢
          exact (mem_add_edge s.graph e.key x.key).mpr (Or.inr hold)
      | Removed =>
          rw [htx] at hold
          simp only [decide_eq_true_eq] at hold ⊢
          intro hmem
          rcases (mem_add_edge s.graph e.key x.key).mp hmem with hk | hk
          · exact hxk hk
          · exact hold hk

theorem consistent_insert_removed (s : Inner) (e : Edge) (ht : e.edge_type = .Removed)
    (h : Consistent s) :
    Consistent { s with graph := remove_edge_g s.graph e.key, edges := insertE s.edges e } := by
  obtain ⟨hg, he⟩ := h
  constructor
  · intro k hk
    obtain ⟨hk', hne⟩ := (mem_remove_edge_g s.graph e.key k).mp hk
    unfold graph_key_ok
    rw [lookupE_insertE_ne _ _ _ hne]
    exact hg k hk'
  · intro x hx
    rcases (mem_insertE s.edges e x).mp hx with rfl | ⟨hxm, hxk⟩
    · unfold entry_ok
      rw [ht]
      simp only [decide_eq_true_eq]
      intro hmem
      exact ((mem_remove_edge_g _ _ _).mp hmem).2 rfl
    · have hold := he x hxm
      unfold entry_ok at hold ⊢
      cases htx : x.edge_type with
      | Active =>
          rw [htx] at hold
          simp only [decide_eq_true_eq] at hold ⊢
          exact (mem_remove_edge_g s.graph e.key x.key).mpr ⟨hold, hxk⟩
      | Removed =>
          rw [htx] at hold
          simp only [decide_eq_true_eq] at hold ⊢
          intro hmem
          exact hold ((mem_remove_edge_g s.graph e.key x.key).mp hmem).1

theorem consistent_update_edge (s : Inner) (now : Int) (e : Edge) (h : Consistent s) :
    Consistent (s.update_edge now e).2 := by
  by_cases h1 : has s.edges e = true
  · rw [update_edge_of_has s now e h1]
    exact h
  · have h1' : has s.edges e = false := by simpa using h1
    by_cases h2 : (match s.config.prune_edges_after with
        | some d => e.is_edge_older_than (now - d)
        | none => false) = true
    · rw [update_edge_of_old s now e h1' h2]
      exact h
    · have h2' : (match s.config.prune_edges_after with
          | some d => e.is_edge_older_than (now - d)
          | none => false) = false := by simpa using h2
      cases ht : e.edge_type with
      | Active =>
          have hstep : (s.update_edge now e).2 =
              { s with graph := add_edge s.graph e.key, edges := insertE s.edges e } := by
            simp [Inner.update_edge, h1', h2', ht]
          rw [hstep]
          exact consistent_insert_active s e ht h
      | Removed =>
          have hstep : (s.update_edge now e).2 =
              { s with graph := remove_edge_g s.graph e.key, edges := insertE s.edges e } := by
            simp [Inner.update_edge, h1', h2', ht]
          rw [hstep]
          exact consistent_insert_removed s e ht h

theorem consistent_remove_edge (s : Inner) (k : EdgeKey) (h : Consistent s) :
    Consistent (s.remove_edge k) := by
  unfold Inner.remove_edge
  by_cases hl : (lookupE s.edges k).isSome
  · rw [if_pos hl]
    obtain ⟨hg, he⟩ := h
    constructor
    · intro k' hk'
      obtain ⟨hk'', hne⟩ := (mem_remove_edge_g s.graph k k').mp hk'
      unfold graph_key_ok
      rw [lookupE_removeE_ne _ _ _ hne]
      exact hg k' hk''
    · intro x hx
      obtain ⟨hxm, hxk⟩ := (mem_removeE s.edges k x).mp hx
      have hold := he x hxm
      unfold entry_ok at hold ⊢
      cases htx : x.edge_type with
      | Active =>
          rw [htx] at hold
          simp only [decide_eq_true_eq] at hold ⊢
          exact (mem_remove_edge_g s.graph k x.key).mpr ⟨hold, hxk⟩
      | Removed =>
          rw [htx] at hold
          simp only [decide_eq_true_eq] at hold ⊢
          intro hmem
          exact hold ((mem_remove_edge_g s.graph k x.key).mp hmem).1
  · rw [if_neg hl]
    exact h

theorem consistent_remove_adjacent_edges (s : Inner) (ps : List PeerId) (h : Consistent s) :
    Consistent (s.remove_adjacent_edges ps).2 := by
  unfold Inner.remove_adjacent_edges
  have := foldl_preserve (fun acc : List Edge × Inner => Consistent acc.2) (raeStep ps)
    (by
      intro st a hst
      unfold raeStep
      by_cases ht : touches ps a.key = true
      · rw [if_pos ht]
        exact consistent_remove_edge st.2 a.key hst
      · rw [if_neg ht]
        exact hst)
    s.edges ([], s) h
  exact this

theorem consistent_prune_old_edges (s : Inner) (t : Int) (h : Consistent s) :
    Consistent (s.prune_old_edges t) := by
  unfold Inner.prune_old_edges
  exact foldl_preserve Consistent _
    (by
      intro st a hst
      by_cases ha : a.is_edge_older_than t = true
      · rw [if_pos ha]
        exact consistent_remove_edge st a.key hst
      · rw [if_neg ha]
        exact hst)
    s.edges s h

theorem consistent_set_R (s : Inner) (r : Rmap) (h : Consistent s) :
    Consistent { s with peer_reachable_at := r } := h

theorem consistent_set_store (s : Inner) (st : Store) (h : Consistent s) :
    Consistent { s with store := st } := h

theorem consistent_prune_unreachable_peers (s : Inner) (t : Int) (h : Consistent s) :
    Consistent (s.prune_unreachable_peers t) := by
  unfold Inner.prune_unreachable_peers
  by_cases hp : (collect_unreachable s t).isEmpty
  · rw [if_pos hp]
    exact h
  · rw [if_neg hp]
    exact consistent_set_store _ _
      (consistent_remove_adjacent_edges _ (collect_unreachable s t) (consistent_set_R s _ h))

theorem consistent_prune_go (s : Inner) (P : List PeerId) (h : Consistent s) :
    Consistent (s.prune_unreachable_go P) :=
  consistent_set_store _ _
    (consistent_remove_adjacent_edges _ P (consistent_set_R s _ h))

theorem consistent_load_component (s : Inner) (now : Int) (p : PeerId) (h : Consistent s) :
    Consistent (s.load_component now p) := by
  unfold Inner.load_component
  by_cases hc : p = s.config.node_id ∨ (lookupR s.peer_reachable_at p).isSome
  · rw [if_pos hc]
    exact h
  · rw [if_neg hc]
    exact foldl_preserve Consistent _
      (fun st a hst => consistent_update_edge st now a hst) _ _
      (consistent_set_store s _ h)

theorem consistent_loadfold (u : Int) (es : List Edge) (s : Inner) (h : Consistent s) :
    Consistent (es.foldl
      (fun s e => (s.load_component u e.key.1).load_component u e.key.2) s) :=
  foldl_preserve Consistent _
    (fun st a hst => consistent_load_component _ u a.key.2
      (consistent_load_component st u a.key.1 hst)) es s h

theorem consistent_apply_fold (u : Int) (es : List Edge) (p : List Edge × Inner)
    (h : Consistent p.2) :
    Consistent (es.foldl (fun (acc : List Edge × Inner) e =>
      let r := acc.2.update_edge u e
      (if r.1 then acc.1 ++ [e] else acc.1, r.2)) p).2 :=
  foldl_preserve (fun acc : List Edge × Inner => Consistent acc.2) _
    (fun st a hst => consistent_update_edge st.2 u a hst) es p h

theorem consistent_age_match (s : Inner) (u : Int) (h : Consistent s) :
    Consistent (match s.config.prune_edges_after with
      | some d => s.prune_old_edges (u - d)
      | none => s) := by
  cases hpe : s.config.prune_edges_after with
  | none => simp only [hpe]; exact h
  | some d => simp only [hpe]; exact consistent_prune_old_edges s _ h

theorem consistent_update_routing_table (s : Inner) (u i : Int) (es : List Edge)
    (ur : List PeerId) (h : Consistent s) :
    Consistent (s.update_routing_table u i es ur).2 := by
  unfold Inner.update_routing_table
  exact consistent_prune_unreachable_peers _ _
    (consistent_set_R _ _
      (consistent_age_match _ u
        (consistent_apply_fold u es _ (consistent_loadfold u es s h))))

/-! ### Characterization of remove_adjacent_edges and prune_unreachable_peers (C7) -/

theorem raeStep_pos (ps : List PeerId) (acc : List Edge) (s : Inner) (e : Edge)
    (ht : touches ps e.key = true) :
    raeStep ps (acc, s) e = (acc ++ [e], s.remove_edge e.key) := by
  unfold raeStep
  rw [if_pos ht]

theorem raeStep_neg (ps : List PeerId) (acc : List Edge) (s : Inner) (e : Edge)
    (ht : ¬(touches ps e.key = true)) :
    raeStep ps (acc, s) e = (acc, s) := by
  unfold raeStep
  rw [if_neg ht]

theorem remove_edge_config (s : Inner) (k : EdgeKey) : (s.remove_edge k).config = s.config := by
  unfold Inner.remove_edge
  split <;> rfl

theorem remove_edge_R (s : Inner) (k : EdgeKey) :
    (s.remove_edge k).peer_reachable_at = s.peer_reachable_at := by
  unfold Inner.remove_edge
  split <;> rfl

theorem remove_edge_store (s : Inner) (k : EdgeKey) : (s.remove_edge k).store = s.store := by
  unfold Inner.remove_edge
  split <;> rfl

theorem remove_edge_edges (s : Inner) (k : EdgeKey) :
    (s.remove_edge k).edges = removeE s.edges k := by
  unfold Inner.remove_edge
  by_cases hl : (lookupE s.edges k).isSome
  · rw [if_pos hl]
  · rw [if_neg hl]
    have hnone : lookupE s.edges k = none := by
      cases hv : lookupE s.edges k
      · rfl
      · rw [hv] at hl; exact absurd rfl hl
    have hall := (lookupE_eq_none_iff s.edges k).mp hnone
    unfold removeE
    refine (List.filter_eq_self.mpr ?_).symm
    intro e he
    simpa using hall e he

theorem remove_edge_graph_sub (s : Inner) (k k' : EdgeKey)
    (h : k' ∈ (s.remove_edge k).graph) : k' ∈ s.graph := by
  unfold Inner.remove_edge at h
  by_cases hl : (lookupE s.edges k).isSome
  · rw [if_pos hl] at h
    exact ((mem_remove_edge_g _ _ _).mp h).1
  · rw [if_neg hl] at h
    exact h

theorem remove_edge_graph_of_some (s : Inner) (k : EdgeKey)
    (h : (lookupE s.edges k).isSome = true) :
    (s.remove_edge k).graph = remove_edge_g s.graph k := by
  unfold Inner.remove_edge
  rw [if_pos h]

theorem rae_fold_fst (ps : List PeerId) : ∀ (l : List Edge) (acc : List Edge) (s : Inner),
    (l.foldl (raeStep ps) (acc, s)).1 = acc ++ l.filter (fun e => touches ps e.key) := by
  intro l
  induction l with
  | nil => intro acc s; simp
  | cons a l ih =>
      intro acc s
      by_cases ht : touches ps a.key = true
      · rw [List.foldl_cons, raeStep_pos ps acc s a ht, ih]
        simp [List.filter_cons, ht, List.append_assoc]
      · have ht' : touches ps a.key = false := by simpa using ht
        rw [List.foldl_cons, raeStep_neg ps acc s a ht, ih]
        simp [List.filter_cons, ht']

theorem rae_fold_fields (ps : List PeerId) : ∀ (l : List Edge) (acc : List Edge) (s : Inner),
    (l.foldl (raeStep ps) (acc, s)).2.config = s.config ∧
    (l.foldl (raeStep ps) (acc, s)).2.peer_reachable_at = s.peer_reachable_at ∧
    (l.foldl (raeStep ps) (acc, s)).2.store = s.store := by
  intro l
  induction l with
  | nil => intro acc s; exact ⟨rfl, rfl, rfl⟩
  | cons a l ih =>
      intro acc s
      by_cases ht : touches ps a.key = true
      · rw [List.foldl_cons, raeStep_pos ps acc s a ht]
        obtain ⟨h1, h2, h3⟩ := ih (acc ++ [a]) (s.remove_edge a.key)
        exact ⟨h1.trans (remove_edge_config s a.key),
               h2.trans (remove_edge_R s a.key),
               h3.trans (remove_edge_store s a.key)⟩
      · rw [List.foldl_cons, raeStep_neg ps acc s a ht]
        exact ih acc s

theorem rae_fold_edges (ps : List PeerId) : ∀ (l : List Edge) (acc : List Edge) (s : Inner),
    (l.foldl (raeStep ps) (acc, s)).2.edges =
      s.edges.filter (fun x =>
        ¬(x.key ∈ (l.filter (fun e => touches ps e.key)).map (fun e => e.key))) := by
  intro l
  induction l with
  | nil =>
      intro acc s
      simp
  | cons a l ih =>
      intro acc s
      by_cases ht : touches ps a.key = true
      · rw [List.foldl_cons, raeStep_pos ps acc s a ht, ih, remove_edge_edges]
        simp only [List.filter_cons, ht, if_true, List.map_cons]
        unfold removeE
        rw [List.filter_filter]
        refine List.filter_congr ?_
        intro x hx
        by_cases h1 : x.key = a.key
        · simp [h1]
        · by_cases h2 : x.key ∈ (l.filter (fun e => touches ps e.key)).map (fun e => e.key) <;>
            simp [h1, h2]
      · have ht' : touches ps a.key = false := by simpa using ht
        rw [List.foldl_cons, raeStep_neg ps acc s a ht, ih]
        simp [List.filter_cons, ht']

theorem rae_fold_graph_sub (ps : List PeerId) : ∀ (l : List Edge) (acc : List Edge) (s : Inner)
    (k : EdgeKey), k ∈ (l.foldl (raeStep ps) (acc, s)).2.graph → k ∈ s.graph := by
  intro l
  induction l with
  | nil => intro acc s k h; exact h
  | cons a l ih =>
      intro acc s k h
      by_cases ht : touches ps a.key = true
      · rw [List.foldl_cons, raeStep_pos ps acc s a ht] at h
        exact remove_edge_graph_sub s a.key k (ih _ _ k h)
      · rw [List.foldl_cons, raeStep_neg ps acc s a ht] at h
        exact ih acc s k h

theorem rae_fold_graph_removed (ps : List PeerId) :
    ∀ (l : List Edge) (acc : List Edge) (s : Inner) (e : Edge), e ∈ l →
    touches ps e.key = true → (lookupE s.edges e.key).isSome = true →
    ¬(e.key ∈ (l.foldl (raeStep ps) (acc, s)).2.graph) := by
  intro l
  induction l with
  | nil => intro acc s e he; exact absurd he (List.not_mem_nil e)
  | cons a l ih =>
      intro acc s e he ht hsome
      rcases List.mem_cons.mp he with rfl | hel
      · rw [List.foldl_cons, raeStep_pos ps acc s e ht]
        intro hmem
        have hsub := rae_fold_graph_sub ps l (acc ++ [e]) (s.remove_edge e.key) e.key hmem
        rw [remove_edge_graph_of_some s e.key hsome] at hsub
        exact ((mem_remove_edge_g _ _ _).mp hsub).2 rfl
      · by_cases hta : touches ps a.key = true
        · rw [List.foldl_cons, raeStep_pos ps acc s a hta]
          by_cases hke : e.key = a.key
          · intro hmem
            have hsub := rae_fold_graph_sub ps l (acc ++ [a]) (s.remove_edge a.key) e.key hmem
            rw [remove_edge_graph_of_some s a.key (hke ▸ hsome)] at hsub
            exact ((mem_remove_edge_g _ _ _).mp hsub).2 hke
          · refine ih _ _ e hel ht ?_
            rw [remove_edge_edges, lookupE_removeE_ne s.edges a.key e.key hke]
            exact hsome
        · rw [List.foldl_cons, raeStep_neg ps acc s a hta]
          exact ih acc s e hel ht hsome

/-! ### Reachability-map and peer-collection lemmas -/

theorem lookupR_removeR_self (r : Rmap) (p : PeerId) :
    lookupR (removeR r p) p = none := by
  unfold lookupR removeR
  rw [Option.map_eq_none', List.find?_eq_none]
  intro q hq
  simp only [List.mem_filter, decide_eq_true_eq, Bool.not_eq_true'] at hq
  simp only [decide_eq_true_eq]
  intro hk
  rcases hq with ⟨_, hne⟩
  simp [hk] at hne

theorem lookupR_removeR_none (r : Rmap) (p q : PeerId) (h : lookupR r q = none) :
    lookupR (removeR r p) q = none := by
  unfold lookupR removeR
  unfold lookupR at h
  rw [Option.map_eq_none', List.find?_eq_none]
  rw [Option.map_eq_none', List.find?_eq_none] at h
  intro x hx
  exact h x ((List.mem_filter.mp hx).1)

theorem lookupR_foldl_removeR (P : List PeerId) : ∀ (r : Rmap) (p : PeerId), p ∈ P →
    lookupR (P.foldl removeR r) p = none := by
  induction P with
  | nil => intro r p h; exact absurd h (List.not_mem_nil p)
  | cons a P ih =>
      intro r p h
      rcases List.mem_cons.mp h with rfl | hp
      · by_cases hm : p ∈ P
        · exact ih (removeR r p) p hm
        · rw [List.foldl_cons]
          exact foldl_preserve (fun r : Rmap => lookupR r p = none) removeR
            (fun st b hst => lookupR_removeR_none st b p hst) P (removeR r p)
            (lookupR_removeR_self r p)
      · exact ih (removeR r a) p hp

theorem mem_insertP (l : List PeerId) (q p : PeerId) :
    p ∈ insertP l q ↔ p ∈ l ∨ p = q := by
  unfold insertP
  by_cases h : q ∈ l
  · rw [if_pos h]
    constructor
    · exact fun hp => Or.inl hp
    · rintro (hp | rfl)
      · exact hp
      · exact h
  · rw [if_neg h]
    simp

theorem mem_collectStep (r : Rmap) (t : Int) (acc : List PeerId) (e : Edge) (p : PeerId) :
    p ∈ collectStep r t acc e ↔ p ∈ acc ∨
      (p = e.key.1 ∧ unreachableB r t e.key.1 = true) ∨
      (p = e.key.2 ∧ unreachableB r t e.key.2 = true) := by
  unfold collectStep
  by_cases h1 : unreachableB r t e.key.1 = true
  all_goals by_cases h2 : unreachableB r t e.key.2 = true
  all_goals simp [h1, h2, mem_insertP]
  all_goals tauto

theorem mem_collect_fold (r : Rmap) (t : Int) :
    ∀ (l : List Edge) (acc : List PeerId) (p : PeerId),
    p ∈ l.foldl (collectStep r t) acc ↔ p ∈ acc ∨
      ∃ e ∈ l, (p = e.key.1 ∧ unreachableB r t e.key.1 = true) ∨
        (p = e.key.2 ∧ unreachableB r t e.key.2 = true) := by
  intro l
  induction l with
  | nil => intro acc p; simp
  | cons a l ih =>
      intro acc p
      rw [List.foldl_cons, ih, mem_collectStep]
      rw [List.exists_mem_cons_iff]
      exact or_assoc

theorem mem_collect_unreachable (s : Inner) (t : Int) (p : PeerId) :
    p ∈ collect_unreachable s t ↔
      ∃ e ∈ s.edges, (p = e.key.1 ∨ p = e.key.2) ∧
        unreachableB s.peer_reachable_at t p = true := by
  unfold collect_unreachable
  rw [mem_collect_fold]
  simp only [List.not_mem_nil, false_or]
  constructor
  · rintro ⟨e, he, (⟨rfl, hu⟩ | ⟨rfl, hu⟩)⟩
    · exact ⟨e, he, Or.inl rfl, hu⟩
    · exact ⟨e, he, Or.inr rfl, hu⟩
  · rintro ⟨e, he, (rfl | rfl), hu⟩
    · exact ⟨e, he, Or.inl ⟨rfl, hu⟩⟩
    · exact ⟨e, he, Or.inr ⟨rfl, hu⟩⟩

theorem prune_go_R (s : Inner) (P : List PeerId) :
    (s.prune_unreachable_go P).peer_reachable_at = P.foldl removeR s.peer_reachable_at := by
  have h := (rae_fold_fields P
    ({ s with peer_reachable_at := P.foldl removeR s.peer_reachable_at } : Inner).edges []
    { s with peer_reachable_at := P.foldl removeR s.peer_reachable_at }).2.1
  exact h

theorem prune_go_store (s : Inner) (P : List PeerId) :
    (s.prune_unreachable_go P).store =
      s.store.push_component P (s.edges.filter (fun e => touches P e.key)) := by
  have hst := (rae_fold_fields P
    ({ s with peer_reachable_at := P.foldl removeR s.peer_reachable_at } : Inner).edges []
    { s with peer_reachable_at := P.foldl removeR s.peer_reachable_at }).2.2
  have hfst := rae_fold_fst P
    ({ s with peer_reachable_at := P.foldl removeR s.peer_reachable_at } : Inner).edges []
    { s with peer_reachable_at := P.foldl removeR s.peer_reachable_at }
  show (_ : Store).push_component P _ = _
  unfold Inner.remove_adjacent_edges
  rw [hst, hfst]
  rfl

theorem prune_go_edges (s : Inner) (P : List PeerId) :
    (s.prune_unreachable_go P).edges =
      s.edges.filter (fun x =>
        ¬(x.key ∈ (s.edges.filter (fun e => touches P e.key)).map (fun e => e.key))) := by
  have h := rae_fold_edges P
    ({ s with peer_reachable_at := P.foldl removeR s.peer_reachable_at } : Inner).edges []
    { s with peer_reachable_at := P.foldl removeR s.peer_reachable_at }
  exact h

theorem prune_go_graph (s : Inner) (P : List PeerId) (e : Edge) (he : e ∈ s.edges)
    (ht : touches P e.key = true) : ¬(e.key ∈ (s.prune_unreachable_go P).graph) := by
  have h := rae_fold_graph_removed P
    ({ s with peer_reachable_at := P.foldl removeR s.peer_reachable_at } : Inner).edges []
    { s with peer_reachable_at := P.foldl removeR s.peer_reachable_at }
    e he ht (lookupE_isSome_of_mem _ e he)
  exact h

/-! ### C4 and C7: the invariant and prune_unreachable_peers -/

/-- C4: state consistency. In a consistent state a key held in E with state Removed has
no entry in G, and consistency (`k ∈ G` iff `E[k]` exists with state Active) is preserved
by every step: `update_edge`, `remove_edge`, `remove_adjacent_edges`, `prune_old_edges`,
`prune_unreachable_peers`, `load_component`, and a full `update_routing_table` pass. -/
theorem state_consistency (s : Inner) (h : Consistent s) :
    (∀ e ∈ s.edges, e.edge_type = .Removed → ¬(e.key ∈ s.graph)) ∧
    (∀ now e, Consistent (s.update_edge now e).2) ∧
    (∀ k, Consistent (s.remove_edge k)) ∧
    (∀ ps, Consistent (s.remove_adjacent_edges ps).2) ∧
    (∀ t, Consistent (s.prune_old_edges t)) ∧
    (∀ t, Consistent (s.prune_unreachable_peers t)) ∧
    (∀ now p, Consistent (s.load_component now p)) ∧
    (∀ u i es ur, Consistent (s.update_routing_table u i es ur).2) := by
  refine ⟨?_, fun now e => consistent_update_edge s now e h,
    fun k => consistent_remove_edge s k h,
    fun ps => consistent_remove_adjacent_edges s ps h,
    fun t => consistent_prune_old_edges s t h,
    fun t => consistent_prune_unreachable_peers s t h,
    fun now p => consistent_load_component s now p h,
    fun u i es ur => consistent_update_routing_table s u i es ur h⟩
  intro e he ht
  have hok := h.2 e he
  unfold entry_ok at hok
  rw [ht] at hok
  simpa using hok

/-- Witness for C4: a consistent concrete state with one Active edge in E and G and one
tombstone in E only, kept consistent by an edge update and by an eviction pass. -/
theorem state_consistency_witness :
    Consistent ((Inner.update_edge
      (⟨⟨0, 100, none⟩, [(1, 2)],
        [⟨(1, 2), 1, 0, true⟩, ⟨(3, 4), 2, 0, true⟩],
        [(0, 0), (1, 0), (2, 0)], ⟨[], []⟩⟩ : Inner) 5 ⟨(2, 3), 1, 4, true⟩).2) ∧
    Consistent (Inner.prune_unreachable_peers
      (⟨⟨0, 100, none⟩, [(1, 2)],
        [⟨(1, 2), 1, 0, true⟩, ⟨(3, 4), 2, 0, true⟩],
        [(0, 0), (1, 0), (2, 0)], ⟨[], []⟩⟩ : Inner) 7) := by
  have h := state_consistency
    (⟨⟨0, 100, none⟩, [(1, 2)],
      [⟨(1, 2), 1, 0, true⟩, ⟨(3, 4), 2, 0, true⟩],
      [(0, 0), (1, 0), (2, 0)], ⟨[], []⟩⟩ : Inner) (by decide)
  exact ⟨h.2.1 5 ⟨(2, 3), 1, 4, true⟩, h.2.2.2.2.2.1 7⟩

/-- C7: `prune_unreachable_peers(t)` collects exactly the endpoints of keys of E whose
reachability entry is missing or earlier than `t`; when this set P is empty the state is
untouched; otherwise every `p ∈ P` is dropped from R, every edge of E touching P is
removed from both E and G, the other edges stay, and exactly the removed edges together
with P are handed to `store.push_component`. -/
theorem prune_unreachable_peers_spec (s : Inner) (t : Int) :
    (∀ p, p ∈ collect_unreachable s t ↔
      ∃ e ∈ s.edges, (p = e.key.1 ∨ p = e.key.2) ∧
        unreachableB s.peer_reachable_at t p = true) ∧
    (collect_unreachable s t = [] → s.prune_unreachable_peers t = s) ∧
    (collect_unreachable s t ≠ [] →
      (∀ p ∈ collect_unreachable s t,
        lookupR (s.prune_unreachable_peers t).peer_reachable_at p = none) ∧
      (∀ e ∈ s.edges, touches (collect_unreachable s t) e.key = true →
        ¬(e ∈ (s.prune_unreachable_peers t).edges) ∧
        ¬(e.key ∈ (s.prune_unreachable_peers t).graph)) ∧
      (∀ e ∈ s.edges, touches (collect_unreachable s t) e.key = false →
        e ∈ (s.prune_unreachable_peers t).edges) ∧
      (s.prune_unreachable_peers t).store.pushLog =
        s.store.pushLog ++ [(collect_unreachable s t,
          s.edges.filter (fun e => touches (collect_unreachable s t) e.key))]) := by
  refine ⟨mem_collect_unreachable s t, ?_, ?_⟩
  · intro h0
    unfold Inner.prune_unreachable_peers
    rw [h0]
    rfl
  · intro hne
    have hproc : s.prune_unreachable_peers t =
        s.prune_unreachable_go (collect_unreachable s t) := by
      unfold Inner.prune_unreachable_peers
      rw [if_neg (by simpa [List.isEmpty_iff] using hne)]
    rw [hproc]
    refine ⟨?_, ?_, ?_, ?_⟩
    · intro p hp
      rw [prune_go_R]
      exact lookupR_foldl_removeR _ _ p hp
    · intro e he ht
      constructor
      · rw [prune_go_edges]
        intro hmem
        have hpred := (List.mem_filter.mp hmem).2
        simp only [decide_eq_true_eq] at hpred
        exact hpred (List.mem_map.mpr ⟨e, List.mem_filter.mpr ⟨he, ht⟩, rfl⟩)
      · exact prune_go_graph s _ e he ht
    · intro e he ht
      rw [prune_go_edges]
      refine List.mem_filter.mpr ⟨he, ?_⟩
      simp only [decide_eq_true_eq]
      intro hmem
      rcases List.mem_map.mp hmem with ⟨x, hx, hkey⟩
      have htx := (List.mem_filter.mp hx).2
      rw [hkey, ht] at htx
      exact Bool.noConfusion htx
    · rw [prune_go_store]
      rfl

/-- Witness for C7: a state with a single edge between two unreachable peers; the prune
pass empties R's view of them, evicts the edge, and pushes exactly that component. -/
theorem prune_unreachable_peers_spec_witness :
    lookupR (Inner.prune_unreachable_peers
      (⟨⟨0, 100, none⟩, [(1, 2)], [⟨(1, 2), 1, 0, true⟩], [], ⟨[], []⟩⟩ : Inner)
      0).peer_reachable_at 1 = none ∧
    ¬((⟨(1, 2), 1, 0, true⟩ : Edge) ∈ (Inner.prune_unreachable_peers
      (⟨⟨0, 100, none⟩, [(1, 2)], [⟨(1, 2), 1, 0, true⟩], [], ⟨[], []⟩⟩ : Inner) 0).edges) ∧
    (Inner.prune_unreachable_peers
      (⟨⟨0, 100, none⟩, [(1, 2)], [⟨(1, 2), 1, 0, true⟩], [], ⟨[], []⟩⟩ : Inner)
      0).store.pushLog =
      [] ++ [(collect_unreachable
          (⟨⟨0, 100, none⟩, [(1, 2)], [⟨(1, 2), 1, 0, true⟩], [], ⟨[], []⟩⟩ : Inner) 0,
        [⟨(1, 2), 1, 0, true⟩])] := by
  have h := (prune_unreachable_peers_spec
    (⟨⟨0, 100, none⟩, [(1, 2)], [⟨(1, 2), 1, 0, true⟩], [], ⟨[], []⟩⟩ : Inner) 0).2.2
    (by decide)
  exact ⟨h.1 1 (by decide),
    (h.2.1 ⟨(1, 2), 1, 0, true⟩ (by decide) (by decide)).1,
    h.2.2.2⟩

/-! ### C2: the verifier and partial acceptance -/

theorem mem_dedup_insert (acc : List Edge) (e x : Edge) (h : x ∈ dedup_insert acc e) :
    x ∈ acc ∨ x = e := by
  unfold dedup_insert at h
  split at h
  · split at h
    · exact Or.inl h
    · rcases List.mem_cons.mp h with rfl | hx
      · exact Or.inr rfl
      · exact Or.inl (List.mem_filter.mp hx).1
  · rcases List.mem_cons.mp h with rfl | hx
    · exact Or.inr rfl
    · exact Or.inl hx

theorem mem_dedup_fold (x : Edge) : ∀ (l : List Edge) (acc : List Edge),
    x ∈ l.foldl dedup_insert acc → x ∈ acc ∨ x ∈ l := by
  intro l
  induction l with
  | nil => intro acc h; exact Or.inl h
  | cons a l ih =>
      intro acc h
      rcases ih (dedup_insert acc a) h with hx | hx
      · rcases mem_dedup_insert acc a x hx with hx' | rfl
        · exact Or.inl hx'
        · exact Or.inr (List.mem_cons_self x l)
      · exact Or.inr (List.mem_cons_of_mem a hx)

theorem mem_deduplicate (l : List Edge) (x : Edge) (h : x ∈ deduplicate l) : x ∈ l := by
  rcases mem_dedup_fold x l [] h with hx | hx
  · exact absurd hx (List.not_mem_nil x)
  · exact hx

theorem verify_snd_eq_false_iff (snapshot : Emap) (edges : List Edge) :
    (GraphWithCache.verify snapshot edges).2 = false ↔
      ∃ e ∈ deduplicate edges, has snapshot e = false ∧ e.valid = false := by
  unfold GraphWithCache.verify
  rw [List.all_eq_false]
  constructor
  · rintro ⟨e, he, hv⟩
    obtain ⟨hd, hh⟩ := List.mem_filter.mp he
    refine ⟨e, hd, ?_, ?_⟩
    · simpa using hh
    · simpa using hv
  · rintro ⟨e, hd, hh, hv⟩
    refine ⟨e, List.mem_filter.mpr ⟨hd, by simpa using hh⟩, by simpa using hv⟩

/-- Counterexample to C2 as stated: in the batch `[v, b]` with `v` valid Active
`((1,2), nonce 1)` and `b` invalid `((1,2), nonce 3)`, deduplication keeps only the
higher-nonce invalid record, so `verify` over the empty snapshot returns `([], false)`:
the valid edge `v` is not dominated by the snapshot and yet is dropped from the accepted
set precisely because the invalid edge `b` is present in the same batch. -/
theorem verify_partial_acceptance_cex :
    GraphWithCache.verify [] [⟨(1, 2), 1, 0, true⟩, ⟨(1, 2), 3, 0, false⟩] = ([], false) ∧
    (⟨(1, 2), 1, 0, true⟩ : Edge).valid = true ∧
    has [] ⟨(1, 2), 1, 0, true⟩ = false ∧
    ¬((⟨(1, 2), 1, 0, true⟩ : Edge) ∈
      (GraphWithCache.verify [] [⟨(1, 2), 1, 0, true⟩, ⟨(1, 2), 3, 0, false⟩]).1) := by
  decide

/-- C2 amended: `verify(X)` accepts every valid edge that survives deduplication of the
whole batch (max-nonce per key, invalid records included) and is not dominated by the
published snapshot, and reports `all_ok = false` if and only if some surviving,
non-dominated edge is invalid. A valid edge can still be dropped when an invalid edge
with the same key and a higher nonce sits in the same batch. -/
theorem verify_partial_acceptance_amended (snapshot : Emap) (edges : List Edge) :
    (∀ e ∈ deduplicate edges, has snapshot e = false → e.valid = true →
      e ∈ (GraphWithCache.verify snapshot edges).1) ∧
    ((GraphWithCache.verify snapshot edges).2 = false ↔
      ∃ e ∈ deduplicate edges, has snapshot e = false ∧ e.valid = false) := by
  constructor
  · intro e hd hh hv
    unfold GraphWithCache.verify
    exact List.mem_filter.mpr ⟨List.mem_filter.mpr ⟨hd, by simpa using hh⟩, by simpa using hv⟩
  · exact verify_snd_eq_false_iff snapshot edges

/-- Witness for the amended C2: a valid edge with its own key is accepted even though an
invalid edge (on a different key) rides in the same batch, and the verdict is false. -/
theorem verify_partial_acceptance_amended_witness :
    (⟨(1, 2), 1, 0, true⟩ : Edge) ∈
      (GraphWithCache.verify [] [⟨(1, 2), 1, 0, true⟩, ⟨(3, 4), 1, 0, false⟩]).1 ∧
    (GraphWithCache.verify [] [⟨(1, 2), 1, 0, true⟩, ⟨(3, 4), 1, 0, false⟩]).2 = false := by
  have h := verify_partial_acceptance_amended [] [⟨(1, 2), 1, 0, true⟩, ⟨(3, 4), 1, 0, false⟩]
  exact ⟨h.1 ⟨(1, 2), 1, 0, true⟩ (by decide) (by decide) (by decide), h.2.mpr (by decide)⟩

/-! ### C3 and C6: add_edges -/

theorem graph_update_created (s : NetworkState) (u i : Int) (es : List Edge) :
    (s.graph_update u i es).2.created_at = s.created_at := rfl

theorem graph_update_skip (s : NetworkState) (u i : Int) (es : List Edge) :
    (s.graph_update u i es).2.skip_tombstones = s.skip_tombstones := rfl

theorem graph_update_broadcasts (s : NetworkState) (u i : Int) (es : List Edge) :
    (s.graph_update u i es).2.broadcasts = s.broadcasts := rfl

theorem add_edges_fst (s : NetworkState) (u i : Int) (edges : List Edge) :
    (s.add_edges u i edges).1 =
      (if (GraphWithCache.verify s.snapshot edges).2 then Except.ok ()
       else Except.error ReasonForBan.InvalidEdge) := by
  unfold NetworkState.add_edges
  by_cases hempty : (GraphWithCache.verify s.snapshot edges).1.isEmpty = true
  · rw [if_pos hempty]
  · rw [if_neg hempty]

/-- C3: `add_edges(clock, edges)` returns `Err(InvalidEdge)` exactly when some edge that
survives deduplication and is not dominated by the published snapshot fails signature
verification; and independently of that verdict, the accepted (valid) edges of the batch
are applied to the graph — the new Inner state and published snapshot are those produced
by `update_routing_table` on the accepted edges — before the error is surfaced. -/
theorem add_edges_invalid_edge (s : NetworkState) (u i : Int) (edges : List Edge) :
    ((s.add_edges u i edges).1 = .error .InvalidEdge ↔
      ∃ e ∈ deduplicate edges, has s.snapshot e = false ∧ e.valid = false) ∧
    ((GraphWithCache.verify s.snapshot edges).1 = [] → (s.add_edges u i edges).2 = s) ∧
    ((GraphWithCache.verify s.snapshot edges).1 ≠ [] →
      (s.add_edges u i edges).2.inner =
        (s.inner.update_routing_table u i (GraphWithCache.verify s.snapshot edges).1
          s.unreliable_peers).2 ∧
      (s.add_edges u i edges).2.snapshot =
        (s.inner.update_routing_table u i (GraphWithCache.verify s.snapshot edges).1
          s.unreliable_peers).2.edges) := by
  refine ⟨?_, ?_, ?_⟩
  · rw [add_edges_fst]
    rw [← verify_snd_eq_false_iff s.snapshot edges]
    cases hv : (GraphWithCache.verify s.snapshot edges).2
    · simp
    · simp
  · intro hnil
    unfold NetworkState.add_edges
    rw [if_pos (by simpa [List.isEmpty_iff] using hnil)]
  · intro hnil
    unfold NetworkState.add_edges
    rw [if_neg (by simpa [List.isEmpty_iff] using hnil)]
    exact ⟨rfl, rfl⟩

/-- Witness for C3: a batch holding one valid edge and one invalid edge on another key
surfaces `InvalidEdge`, yet the state change is the routing-table update on the accepted
valid edge. -/
theorem add_edges_invalid_edge_witness :
    ((⟨⟨⟨0, 100, none⟩, [], [], [], ⟨[], []⟩⟩, [], 0, none, [], []⟩ : NetworkState).add_edges
        0 0 [⟨(1, 2), 1, 0, true⟩, ⟨(3, 4), 1, 0, false⟩]).1 =
      .error .InvalidEdge ∧
    ((⟨⟨⟨0, 100, none⟩, [], [], [], ⟨[], []⟩⟩, [], 0, none, [], []⟩ : NetworkState).add_edges
        0 0 [⟨(1, 2), 1, 0, true⟩, ⟨(3, 4), 1, 0, false⟩]).2.inner =
      ((⟨⟨⟨0, 100, none⟩, [], [], [], ⟨[], []⟩⟩, [], 0, none, [], []⟩ :
          NetworkState).inner.update_routing_table 0 0
        (GraphWithCache.verify [] [⟨(1, 2), 1, 0, true⟩, ⟨(3, 4), 1, 0, false⟩]).1 []).2 := by
  have h := add_edges_invalid_edge
    (⟨⟨⟨0, 100, none⟩, [], [], [], ⟨[], []⟩⟩, [], 0, none, [], []⟩ : NetworkState)
    0 0 [⟨(1, 2), 1, 0, true⟩, ⟨(3, 4), 1, 0, false⟩]
  exact ⟨h.1.mpr (by decide), (h.2.2 (by decide)).1⟩

/-- C6: during the warm-up window (`skip_tombstones` configured and the processing
instant earlier than `created_at + skip_tombstones`), any `RoutingTableUpdate` payload
that an `add_edges` call broadcasts contains only Active edges — no tombstones. -/
theorem tombstone_suppression (s : NetworkState) (u i : Int) (edges : List Edge) (d : Int)
    (h1 : s.skip_tombstones = some d) (h2 : i < s.created_at + d) :
    ∃ t, (s.add_edges u i edges).2.broadcasts = s.broadcasts ++ t ∧
      ∀ l ∈ t, ∀ e ∈ l, e.edge_type = .Active := by
  unfold NetworkState.add_edges
  by_cases hempty : (GraphWithCache.verify s.snapshot edges).1.isEmpty = true
  · rw [if_pos hempty]
    exact ⟨[], by simp, by simp⟩
  · rw [if_neg hempty]
    simp only [graph_update_skip, graph_update_created, h1]
    rw [if_pos h2]
    show ∃ t, broadcast_rtu (s.graph_update u i _).2.broadcasts _ = s.broadcasts ++ t ∧ _
    rw [graph_update_broadcasts]
    unfold broadcast_rtu
    by_cases hg : ((s.graph_update u i
        (GraphWithCache.verify s.snapshot edges).1).1.filter
          (fun e => e.edge_type = EdgeState.Active)).isEmpty = true
    · rw [if_pos hg]
      exact ⟨[], by simp, by simp⟩
    · rw [if_neg hg]
      refine ⟨[deduplicate ((s.graph_update u i
          (GraphWithCache.verify s.snapshot edges).1).1.filter
            (fun e => e.edge_type = EdgeState.Active))], rfl, ?_⟩
      intro l hl e he
      rcases List.mem_singleton.mp hl with rfl
      have hmem := mem_deduplicate _ e he
      have := (List.mem_filter.mp hmem).2
      simpa using this

/-- Witness for C6: with `skip_tombstones = 100` and the clock inside the warm-up window,
an `add_edges` batch holding a fresh Active edge and a fresh tombstone broadcasts a
payload from which the tombstone has been stripped. -/
theorem tombstone_suppression_witness :
    ∃ t, (((⟨⟨⟨0, 100, none⟩, [], [], [], ⟨[], []⟩⟩, [], 0, some 100, [], []⟩ :
        NetworkState).add_edges 0 10
        [⟨(1, 2), 1, 0, true⟩, ⟨(3, 4), 2, 0, true⟩]).2.broadcasts = [] ++ t) ∧
      ∀ l ∈ t, ∀ e ∈ l, e.edge_type = .Active :=
  tombstone_suppression
    (⟨⟨⟨0, 100, none⟩, [], [], [], ⟨[], []⟩⟩, [], 0, some 100, [], []⟩ : NetworkState)
    0 10 [⟨(1, 2), 1, 0, true⟩, ⟨(3, 4), 2, 0, true⟩] 100 rfl (by decide)

end NearRouting

namespace NearVM

/-! ### C8, C9, C10: the VM register file -/

theorem pay_pos (g : GasCounter) (cost : Nat) (h : g.burnt + cost ≤ g.limit) :
    g.pay cost = (.ok (), ⟨g.costs, g.burnt + cost, g.limit⟩) := by
  unfold GasCounter.pay
  rw [if_pos h]

theorem lookupReg_insert_self (l : Regs) (id : Nat) (d : List Nat) :
    lookupReg ((id, d) :: l) id = some d := by
  unfold lookupReg
  rw [List.find?_cons_of_pos _ (by simp)]
  rfl

/-- C8: every limit-violation failure of `Registers::set` — a data length not
representable in u64, a data length above `max_register_size`, a register count already
at `max_number_registers`, or a total register memory usage above
`registers_memory_limit` — surfaces as the single error kind `MemoryAccessViolation`;
and whenever `set` succeeds, the register holds the new value. -/
theorem registers_set_spec (rs : Regs) (gas : GasCounter) (cfg : VMLimitConfig)
    (id : Nat) (data : List Nat) :
    (data.length ≥ 2 ^ 64 →
      (Registers.set rs gas cfg id data).1 = .error .MemoryAccessViolation) ∧
    (data.length < 2 ^ 64 →
      gas.burnt + gas.costs.write_register_base +
        gas.costs.write_register_byte * data.length ≤ gas.limit →
      (data.length > cfg.max_register_size ∨ rs.length ≥ cfg.max_number_registers →
        (Registers.set rs gas cfg id data).1 = .error .MemoryAccessViolation) ∧
      (data.length ≤ cfg.max_register_size → rs.length < cfg.max_number_registers →
        (∀ old, lookupReg rs id = some old → old.length < data.length →
          regUsage ((id, data) :: rs.filter (fun p => ¬(p.1 = id))) >
              cfg.registers_memory_limit →
          (Registers.set rs gas cfg id data).1 = .error .MemoryAccessViolation) ∧
        (lookupReg rs id = none →
          regUsage ((id, data) :: rs.filter (fun p => ¬(p.1 = id))) >
              cfg.registers_memory_limit →
          (Registers.set rs gas cfg id data).1 = .error .MemoryAccessViolation))) ∧
    (∀ g r, Registers.set rs gas cfg id data = (.ok (), g, r) →
      lookupReg r id = some data) := by
  refine ⟨?_, ?_, ?_⟩
  · intro h
    unfold Registers.set
    rw [if_pos h]
  · intro hlen hgas
    constructor
    · intro hviol
      unfold Registers.set
      rw [if_neg (by omega : ¬(data.length ≥ 2 ^ 64))]
      simp only []
      simp only [pay_pos gas gas.costs.write_register_base (by omega)]
      simp only [pay_pos (⟨gas.costs, gas.burnt + gas.costs.write_register_base,
        gas.limit⟩ : GasCounter) (gas.costs.write_register_byte * data.length)
        (by simpa using hgas)]
      rw [if_pos hviol]
    · intro hsize hcount
      constructor
      · intro old hold hshort husage
        unfold Registers.set
        rw [if_neg (by omega : ¬(data.length ≥ 2 ^ 64))]
        simp only []
        simp only [pay_pos gas gas.costs.write_register_base (by omega)]
        simp only [pay_pos (⟨gas.costs, gas.burnt + gas.costs.write_register_base,
          gas.limit⟩ : GasCounter) (gas.costs.write_register_byte * data.length)
          (by simpa using hgas)]
        rw [if_neg (by omega : ¬(data.length > cfg.max_register_size ∨
          rs.length ≥ cfg.max_number_registers))]
        rw [hold]
        simp only []
        rw [if_neg (by omega : ¬(data.length ≤ old.length)), if_pos husage]
      · intro hnone husage
        unfold Registers.set
        rw [if_neg (by omega : ¬(data.length ≥ 2 ^ 64))]
        simp only []
        simp only [pay_pos gas gas.costs.write_register_base (by omega)]
        simp only [pay_pos (⟨gas.costs, gas.burnt + gas.costs.write_register_base,
          gas.limit⟩ : GasCounter) (gas.costs.write_register_byte * data.length)
          (by simpa using hgas)]
        rw [if_neg (by omega : ¬(data.length > cfg.max_register_size ∨
          rs.length ≥ cfg.max_number_registers))]
        rw [hnone]
        simp only []
        rw [if_pos husage]
  · intro g r h
    unfold Registers.set at h
    simp only [] at h
    split at h
    · simp at h
    · split at h
      · simp at h
      · split at h
        · simp at h
        · split at h
          · simp at h
          · split at h
            · split at h
              · simp only [Prod.mk.injEq] at h
                rw [← h.2.2]
                exact lookupReg_insert_self _ id data
              · split at h
                · simp at h
                · simp only [Prod.mk.injEq] at h
                  rw [← h.2.2]
                  exact lookupReg_insert_self _ id data
            · split at h
              · simp at h
              · simp only [Prod.mk.injEq] at h
                rw [← h.2.2]
                exact lookupReg_insert_self _ id data

/-- Witness for C8: a successful write stores the value; an oversized write fails with
`MemoryAccessViolation`. -/
theorem registers_set_spec_witness :
    lookupReg (Registers.set [] ⟨⟨10, 1, 20, 2⟩, 0, 1000000⟩ ⟨100, 2, 1000⟩
      7 [1, 2, 3]).2.2 7 = some [1, 2, 3] ∧
    (Registers.set [] ⟨⟨10, 1, 20, 2⟩, 0, 1000000⟩ ⟨2, 2, 1000⟩ 7 [1, 2, 3]).1 =
      .error .MemoryAccessViolation := by
  constructor
  · exact (registers_set_spec [] ⟨⟨10, 1, 20, 2⟩, 0, 1000000⟩ ⟨100, 2, 1000⟩ 7 [1, 2, 3]).2.2
      (Registers.set [] ⟨⟨10, 1, 20, 2⟩, 0, 1000000⟩ ⟨100, 2, 1000⟩ 7 [1, 2, 3]).2.1
      (Registers.set [] ⟨⟨10, 1, 20, 2⟩, 0, 1000000⟩ ⟨100, 2, 1000⟩ 7 [1, 2, 3]).2.2
      (by decide)
  · exact ((registers_set_spec [] ⟨⟨10, 1, 20, 2⟩, 0, 1000000⟩ ⟨2, 2, 1000⟩ 7
      [1, 2, 3]).2.1 (by decide) (by decide)).1 (by decide)

/-- C9: once the stored register count has reached `max_number_registers`, `Registers::set`
fails with `MemoryAccessViolation` for every `register_id` — also for one that is already
present — and leaves the register file unchanged, so replacing an existing register's
value is impossible at the count limit even though replacement would not grow the count. -/
theorem registers_set_count_limit (rs : Regs) (gas : GasCounter) (cfg : VMLimitConfig)
    (id : Nat) (data : List Nat)
    (hlen : data.length < 2 ^ 64)
    (hgas : gas.burnt + gas.costs.write_register_base +
      gas.costs.write_register_byte * data.length ≤ gas.limit)
    (hcount : rs.length ≥ cfg.max_number_registers) :
    (Registers.set rs gas cfg id data).1 = .error .MemoryAccessViolation ∧
    (Registers.set rs gas cfg id data).2.2 = rs := by
  unfold Registers.set
  rw [if_neg (by omega : ¬(data.length ≥ 2 ^ 64))]
  simp only []
  simp only [pay_pos gas gas.costs.write_register_base (by omega)]
  simp only [pay_pos (⟨gas.costs, gas.burnt + gas.costs.write_register_base,
    gas.limit⟩ : GasCounter) (gas.costs.write_register_byte * data.length)
    (by simpa using hgas)]
  rw [if_pos (Or.inr hcount)]
  exact ⟨rfl, rfl⟩

/-- Witness for C9: with `max_number_registers = 2` and two registers stored, even
rewriting the already-present register 1 fails and changes nothing. -/
theorem registers_set_count_limit_witness :
    (Registers.set [(1, [5]), (2, [6])] ⟨⟨10, 1, 20, 2⟩, 0, 1000000⟩ ⟨100, 2, 1000⟩
      1 [9]).1 = .error .MemoryAccessViolation ∧
    (Registers.set [(1, [5]), (2, [6])] ⟨⟨10, 1, 20, 2⟩, 0, 1000000⟩ ⟨100, 2, 1000⟩
      1 [9]).2.2 = [(1, [5]), (2, [6])] :=
  registers_set_count_limit [(1, [5]), (2, [6])] ⟨⟨10, 1, 20, 2⟩, 0, 1000000⟩
    ⟨100, 2, 1000⟩ 1 [9] (by decide) (by decide) (by decide)

/-- C10: `Registers::get` on a missing register returns `InvalidRegisterId` — a kind
distinct from `MemoryAccessViolation` — and leaves the gas counter untouched; on a
present register it charges exactly `read_register_base` plus `read_register_byte`
per byte and returns the data. -/
theorem registers_get_spec (rs : Regs) (gas : GasCounter) (id : Nat) :
    (lookupReg rs id = none →
      Registers.get rs gas id = (.error (.InvalidRegisterId id), gas)) ∧
    (∀ data, lookupReg rs id = some data → data.length < 2 ^ 64 →
      gas.burnt + gas.costs.read_register_base +
        gas.costs.read_register_byte * data.length ≤ gas.limit →
      Registers.get rs gas id =
        (.ok data, ⟨gas.costs, gas.burnt + gas.costs.read_register_base +
          gas.costs.read_register_byte * data.length, gas.limit⟩)) ∧
    (∀ i, (HostError.InvalidRegisterId i ≠ HostError.MemoryAccessViolation)) := by
  refine ⟨?_, ?_, fun i h => HostError.noConfusion h⟩
  · intro h
    unfold Registers.get
    rw [h]
  · intro data hl hlen hgas
    have hb : gas.burnt + gas.costs.read_register_base ≤ gas.limit := by omega
    unfold Registers.get
    rw [hl]
    simp only [pay_pos gas gas.costs.read_register_base hb]
    rw [if_neg (by omega : ¬(data.length ≥ 2 ^ 64))]
    simp only [pay_pos (⟨gas.costs, gas.burnt + gas.costs.read_register_base,
      gas.limit⟩ : GasCounter) (gas.costs.read_register_byte * data.length)
      (by simpa using hgas)]

/-- Witness for C10: reading a missing register costs nothing and reports
`InvalidRegisterId 9`; reading the present register 3 charges base plus per-byte gas. -/
theorem registers_get_spec_witness :
    Registers.get [(3, [7, 7])] ⟨⟨10, 1, 20, 2⟩, 0, 1000000⟩ 9 =
      (.error (.InvalidRegisterId 9), ⟨⟨10, 1, 20, 2⟩, 0, 1000000⟩) ∧
    Registers.get [(3, [7, 7])] ⟨⟨10, 1, 20, 2⟩, 0, 1000000⟩ 3 =
      (.ok [7, 7], ⟨⟨10, 1, 20, 2⟩, 0 + 10 + 1 * 2, 1000000⟩) := by
  have h := registers_get_spec [(3, [7, 7])] ⟨⟨10, 1, 20, 2⟩, 0, 1000000⟩ 9
  have h3 := registers_get_spec [(3, [7, 7])] ⟨⟨10, 1, 20, 2⟩, 0, 1000000⟩ 3
  exact ⟨h.1 (by decide), h3.2.1 [7, 7] (by decide) (by decide) (by decide)⟩

end NearVM
